import Mathlib

/-!
Verification of the minecraft launcher's core engine (rule-based dependency
filtering, coordinate-to-path resolution, SHA-1 digest verification, native
archive extraction, argument substitution, launch assembly and process
supervision), shallowly embedded from `minecraftLauncher.go`.

Strings are modelled as `List Char`, byte streams as `List Nat`
(each element a byte value); the Go string functions used by the source
(`strings.Split`, `strings.SplitN`, `strings.Join`, `path.Join`) are
modelled character by character below.
-/

set_option maxRecDepth 20000

/-- Model of Go `strings.Split(s, sep)` for a one-character separator:
splits at every occurrence of `sep`, keeping empty fields; the empty
string yields `[[]]`. -/
def splitOnChar (sep : Char) : List Char → List (List Char)
  | [] => [[]]
  | c :: rest =>
    match splitOnChar sep rest with
    | [] => [[]]
    | p :: ps => if c = sep then [] :: p :: ps else (c :: p) :: ps

/-- Model of Go `strings.SplitN(s, sep, 2)` for a one-character separator:
splits at the first occurrence of `sep` only. -/
def splitN2 (sep : Char) : List Char → List (List Char)
  | [] => [[]]
  | c :: rest =>
    if c = sep then [[], rest]
    else
      match splitN2 sep rest with
      | [] => [[c]]
      | p :: ps => (c :: p) :: ps

/-- Model of Go `strings.Join(xs, sep)` for a one-character separator. -/
def joinSep (sep : Char) : List (List Char) → List Char
  | [] => []
  | [x] => x
  | x :: y :: ys => x ++ sep :: joinSep sep (y :: ys)

/-- Dot-segment elimination pass of Go `path.Clean`, working on the list of
nonempty `/`-separated segments: `.` segments are dropped and `..` segments
pop the previous segment (or are dropped at the root, or kept at the start
of a relative path). `acc` holds already-emitted segments in reverse. -/
def cleanSegsAux (rooted : Bool) : List (List Char) → List (List Char) → List (List Char)
  | acc, [] => acc.reverse
  | acc, s :: rest =>
    if s = ['.'] then cleanSegsAux rooted acc rest
    else if s = ['.', '.'] then
      match acc with
      | [] => if rooted then cleanSegsAux rooted [] rest else cleanSegsAux rooted [['.', '.']] rest
      | a :: as =>
        if a = ['.', '.'] then cleanSegsAux rooted (s :: a :: as) rest
        else cleanSegsAux rooted as rest
    else cleanSegsAux rooted (s :: acc) rest

/-- Reassembly step of Go `path.Clean`: prepend the root slash when the path
was rooted, join the cleaned segments, and return `.` for an empty result. -/
def pathCleanFrom (rooted : Bool) (segs : List (List Char)) : List Char :=
  if (if rooted then ['/'] else []) ++ joinSep '/' (cleanSegsAux rooted [] segs) = [] then ['.']
  else (if rooted then ['/'] else []) ++ joinSep '/' (cleanSegsAux rooted [] segs)

/-- Model of Go `path.Clean`: empty path becomes `.`, multiple slashes
collapse, `.` and `..` segments are eliminated, and an empty result
becomes `.`. -/
def pathClean (p : List Char) : List Char :=
  if p = [] then ['.']
  else pathCleanFrom (decide (p.headD ' ' = '/')) ((splitOnChar '/' p).filter (fun s => s ≠ []))

/-- Model of Go `path.Join`: the non-empty elements are joined with `/` and
the result cleaned; if every element is empty the result is empty. -/
def goPathJoin (elems : List (List Char)) : List Char :=
  if joinSep '/' (elems.filter (fun s => s ≠ [])) = [] then []
  else pathClean (joinSep '/' (elems.filter (fun s => s ≠ [])))

/-- Segments for which `path.Clean` is inert: nonempty, slash-free and not a
dot or dot-dot segment. -/
def SimpleSeg (s : List Char) : Prop :=
  s ≠ [] ∧ '/' ∉ s ∧ s ≠ ['.'] ∧ s ≠ ['.', '.']

instance (s : List Char) : Decidable (SimpleSeg s) :=
  inferInstanceAs (Decidable (_ ∧ _ ∧ _ ∧ _))

theorem splitOnChar_ne_nil (sep : Char) (s : List Char) : splitOnChar sep s ≠ [] := by
  cases s with
  | nil => simp [splitOnChar]
  | cons c rest =>
    simp only [splitOnChar]
    split
    · simp
    · split <;> simp

theorem splitOnChar_of_not_mem (sep : Char) (s : List Char) (h : sep ∉ s) :
    splitOnChar sep s = [s] := by
  induction s with
  | nil => rfl
  | cons c rest ih =>
    have hc : c ≠ sep := fun hc => h (hc ▸ List.mem_cons_self c rest)
    have hrest : sep ∉ rest := fun hm => h (List.mem_cons_of_mem c hm)
    simp only [splitOnChar]
    rw [ih hrest]
    simp [hc]

theorem splitOnChar_append_sep (sep : Char) (x rest : List Char) (h : sep ∉ x) :
    splitOnChar sep (x ++ sep :: rest) = x :: splitOnChar sep rest := by
  induction x with
  | nil =>
    simp only [List.nil_append, splitOnChar]
    rcases hr : splitOnChar sep rest with _ | ⟨p, ps⟩
    · exact absurd hr (splitOnChar_ne_nil sep rest)
    · simp
  | cons c cs ih =>
    have hc : c ≠ sep := fun hc => h (hc ▸ List.mem_cons_self c cs)
    have hcs : sep ∉ cs := fun hm => h (List.mem_cons_of_mem c hm)
    have ih' : cs.append (sep :: rest) = cs ++ sep :: rest := rfl
    simp only [List.cons_append, splitOnChar]
    rw [ih', ih hcs]
    simp [hc]

theorem splitOnChar_joinSep (sep : Char) (xs : List (List Char)) (hne : xs ≠ [])
    (h : ∀ x ∈ xs, sep ∉ x) : splitOnChar sep (joinSep sep xs) = xs := by
  induction xs with
  | nil => exact absurd rfl hne
  | cons x ys ih =>
    cases ys with
    | nil =>
      simp only [joinSep]
      exact splitOnChar_of_not_mem sep x (h x (List.mem_cons_self x []))
    | cons y zs =>
      have hx : sep ∉ x := h x (List.mem_cons_self _ _)
      have hrest : ∀ z ∈ y :: zs, sep ∉ z := fun z hz => h z (List.mem_cons_of_mem x hz)
      simp only [joinSep, splitOnChar_append_sep sep x _ hx]
      rw [ih (by simp) hrest]

theorem joinSep_ne_nil (sep : Char) (xs : List (List Char)) (hne : xs ≠ [])
    (h : ∀ x ∈ xs, x ≠ []) : joinSep sep xs ≠ [] := by
  cases xs with
  | nil => exact absurd rfl hne
  | cons x ys =>
    cases ys with
    | nil => exact h x (List.mem_cons_self _ _)
    | cons y zs =>
      simp only [joinSep]
      intro hx
      exact h x (List.mem_cons_self _ _) (List.append_eq_nil.mp hx).1

theorem joinSep_append (sep : Char) (xs ys : List (List Char)) (hx : xs ≠ []) (hy : ys ≠ []) :
    joinSep sep (xs ++ ys) = joinSep sep xs ++ sep :: joinSep sep ys := by
  induction xs with
  | nil => exact absurd rfl hx
  | cons x zs ih =>
    cases zs with
    | nil =>
      cases ys with
      | nil => exact absurd rfl hy
      | cons y ws => simp [joinSep]
    | cons z ws =>
      calc joinSep sep ((x :: z :: ws) ++ ys)
          = x ++ sep :: joinSep sep ((z :: ws) ++ ys) := by simp [joinSep]
        _ = x ++ sep :: (joinSep sep (z :: ws) ++ sep :: joinSep sep ys) := by
            rw [ih (by simp)]
        _ = joinSep sep (x :: z :: ws) ++ sep :: joinSep sep ys := by simp [joinSep]

theorem mem_joinSep (sep : Char) (xs : List (List Char)) (c : Char)
    (hc : c ∈ joinSep sep xs) : c = sep ∨ ∃ x ∈ xs, c ∈ x := by
  induction xs with
  | nil => simp [joinSep] at hc
  | cons x ys ih =>
    cases ys with
    | nil =>
      right
      exact ⟨x, List.mem_cons_self _ _, by simpa [joinSep] using hc⟩
    | cons y zs =>
      simp only [joinSep, List.mem_append, List.mem_cons] at hc
      rcases hc with hx | rfl | hrest
      · exact Or.inr ⟨x, List.mem_cons_self _ _, hx⟩
      · exact Or.inl rfl
      · rcases ih hrest with h | ⟨z, hz, hcz⟩
        · exact Or.inl h
        · exact Or.inr ⟨z, List.mem_cons_of_mem x hz, hcz⟩

theorem cleanSegsAux_simple (rooted : Bool) (acc segs : List (List Char))
    (h : ∀ s ∈ segs, SimpleSeg s) : cleanSegsAux rooted acc segs = acc.reverse ++ segs := by
  induction segs generalizing acc with
  | nil => simp [cleanSegsAux]
  | cons s rest ih =>
    obtain ⟨-, -, hdot, hdotdot⟩ := h s (List.mem_cons_self _ _)
    have hrest : ∀ t ∈ rest, SimpleSeg t := fun t ht => h t (List.mem_cons_of_mem s ht)
    simp only [cleanSegsAux, if_neg hdot, if_neg hdotdot, ih (s :: acc) hrest]
    simp

theorem joinSep_headD_ne_slash (sep : Char) (x : List Char) (xs : List (List Char))
    (hx : x ≠ []) (hslash : '/' ∉ x) :
    (joinSep sep (x :: xs)).headD ' ' ≠ '/' := by
  cases x with
  | nil => exact absurd rfl hx
  | cons c cs =>
    have hc : c ≠ '/' := fun hc => hslash (hc ▸ List.mem_cons_self c cs)
    cases xs with
    | nil => simpa [joinSep] using hc
    | cons y ys => simpa [joinSep] using hc

theorem filter_ne_nil_eq_self (segs : List (List Char)) (hns : ∀ s ∈ segs, s ≠ []) :
    segs.filter (fun s => s ≠ []) = segs := by
  rw [List.filter_eq_self]
  intro s hs
  simpa using hns s hs

theorem pathClean_simple (segs : List (List Char)) (hne : segs ≠ [])
    (h : ∀ s ∈ segs, SimpleSeg s) : pathClean (joinSep '/' segs) = joinSep '/' segs := by
  have hns : ∀ s ∈ segs, s ≠ [] := fun s hs => (h s hs).1
  have hnslash : ∀ s ∈ segs, '/' ∉ s := fun s hs => (h s hs).2.1
  have hjoin_ne : joinSep '/' segs ≠ [] := joinSep_ne_nil '/' segs hne hns
  have hroot : (joinSep '/' segs).headD ' ' ≠ '/' := by
    cases segs with
    | nil => exact absurd rfl hne
    | cons x xs =>
      exact joinSep_headD_ne_slash '/' x xs (hns x (List.mem_cons_self _ _))
        (hnslash x (List.mem_cons_self _ _))
  rw [pathClean, if_neg hjoin_ne, splitOnChar_joinSep '/' segs hne hnslash,
    filter_ne_nil_eq_self segs hns, decide_eq_false hroot, pathCleanFrom,
    cleanSegsAux_simple false [] segs h]
  simp only [List.reverse_nil, List.nil_append, Bool.false_eq_true, if_false]
  rw [if_neg hjoin_ne]

theorem goPathJoin_simple (segs : List (List Char)) (hne : segs ≠ [])
    (h : ∀ s ∈ segs, SimpleSeg s) : goPathJoin segs = joinSep '/' segs := by
  have hns : ∀ s ∈ segs, s ≠ [] := fun s hs => (h s hs).1
  rw [goPathJoin, filter_ne_nil_eq_self segs hns,
    if_neg (joinSep_ne_nil '/' segs hne hns)]
  exact pathClean_simple segs hne h

/-! ## Rule evaluation (minecraftLauncher.go lines 161-171) -/

/-- Model of the launcher's `Rule` JSON type: `{action, os: {name, version}}`. -/
structure GoRule where
  action : List Char
  osName : List Char
  osVersion : List Char

/-- The `allow` constant of the source. -/
def allowChars : List Char := ['a', 'l', 'l', 'o', 'w']

/-- Condition of the rule loop: `rule.OS.Name == osStr || rule.OS.Name == ""`.
The `rule.OS.Version` field is never consulted (the source holds only a
`//version check` comment where a check might go). -/
def ruleMatches (osStr : List Char) (r : GoRule) : Bool :=
  decide (r.osName = osStr) || decide (r.osName = [])

/-- Body of the rule loop: each matching rule overwrites
`allowed = (rule.Action == allow)`; non-matching rules leave it unchanged. -/
def evalRulesFrom (osStr : List Char) : Bool → List GoRule → Bool
  | allowed, [] => allowed
  | allowed, r :: rs =>
    evalRulesFrom osStr
      (if ruleMatches osStr r then decide (r.action = allowChars) else allowed) rs

/-- Rule evaluation for one library: `allowed := len(library.Rules) == 0`
followed by the rule loop. -/
def evalRules (osStr : List Char) (rules : List GoRule) : Bool :=
  evalRulesFrom osStr (decide (rules.length = 0)) rules

/-- Specification-side definition (follows the spec's words, for comparison
with `evalRules`): the action of the last rule in list order whose platform
field matches, if any. -/
def lastMatchEval (osStr : List Char) : List GoRule → Option Bool
  | [] => none
  | r :: rs =>
    match lastMatchEval osStr rs with
    | some b => some b
    | none => if ruleMatches osStr r then some (decide (r.action = allowChars)) else none

theorem evalRulesFrom_eq_lastMatch (osStr : List Char) (rules : List GoRule) :
    ∀ a : Bool, evalRulesFrom osStr a rules = (lastMatchEval osStr rules).getD a := by
  induction rules with
  | nil => intro a; rfl
  | cons r rs ih =>
    intro a
    simp only [evalRulesFrom, lastMatchEval, ih]
    rcases h : lastMatchEval osStr rs with _ | b
    · cases hm : ruleMatches osStr r <;> simp [hm]
    · simp

/-- C1: for every dependency, an empty rule list means allowed; otherwise the
result equals the action of the last rule in list order whose platform field
equals the current platform or is empty, rules with a non-matching platform
having no effect, and with no matching rule the dependency is not allowed.
For rules `[{allow, ""}, {deny, "windows"}]` the result on platform
"windows" is deny and on platform "linux" is allow. -/
theorem c1_rule_eval_last_match_wins :
    (∀ osStr : List Char, evalRules osStr [] = true) ∧
    (∀ (osStr : List Char) (rules : List GoRule),
      evalRules osStr rules =
        match lastMatchEval osStr rules with
        | some b => b
        | none => decide (rules.length = 0)) ∧
    evalRules "windows".data
      [⟨"allow".data, [], []⟩, ⟨"deny".data, "windows".data, []⟩] = false ∧
    evalRules "linux".data
      [⟨"allow".data, [], []⟩, ⟨"deny".data, "windows".data, []⟩] = true := by
  refine ⟨fun osStr => rfl, fun osStr rules => ?_, by decide, by decide⟩
  rw [evalRules, evalRulesFrom_eq_lastMatch]
  rcases h : lastMatchEval osStr rules with _ | b <;> simp

theorem evalRulesFrom_congr (osStr : List Char) (rules rules' : List GoRule)
    (h : List.Forall₂ (fun r r' => r.action = r'.action ∧ r.osName = r'.osName) rules rules') :
    ∀ a : Bool, evalRulesFrom osStr a rules = evalRulesFrom osStr a rules' := by
  induction h with
  | nil => intro a; rfl
  | @cons r r' rs rs' h1 _ ih =>
    intro a
    simp only [evalRulesFrom, ruleMatches, h1.1, h1.2]
    exact ih _

/-- C9: rule evaluation is insensitive to each rule's OS version field — for
any two rule lists that agree on the action and platform-name fields of every
rule (and may differ arbitrarily in the version fields), the evaluator
returns the same result for every platform. -/
theorem c9_rule_eval_ignores_version (osStr : List Char) (rules rules' : List GoRule)
    (h : List.Forall₂ (fun r r' => r.action = r'.action ∧ r.osName = r'.osName) rules rules') :
    evalRules osStr rules = evalRules osStr rules' := by
  rw [evalRules, evalRules, h.length_eq, evalRulesFrom_congr osStr rules rules' h]

/-- Witness for C9 at two concrete rule lists differing only in version. -/
theorem c9_witness :
    evalRules "linux".data [⟨"allow".data, "linux".data, "1.0".data⟩] =
      evalRules "linux".data [⟨"allow".data, "linux".data, "2.6".data⟩] :=
  c9_rule_eval_ignores_version "linux".data _ _
    (List.Forall₂.cons ⟨rfl, rfl⟩ List.Forall₂.nil)

/-! ## Coordinate resolution (minecraftLauncher.go lines 172-180 and 226-229) -/

theorem splitN2_ne_nil (sep : Char) (s : List Char) : splitN2 sep s ≠ [] := by
  cases s with
  | nil => simp [splitN2]
  | cons c rest =>
    simp only [splitN2]
    split
    · simp
    · split <;> simp

theorem splitN2_append_sep (sep : Char) (x rest : List Char) (h : sep ∉ x) :
    splitN2 sep (x ++ sep :: rest) = [x, rest] := by
  induction x with
  | nil => simp [splitN2]
  | cons c cs ih =>
    have hc : c ≠ sep := fun hc => h (hc ▸ List.mem_cons_self c cs)
    have hcs : sep ∉ cs := fun hm => h (List.mem_cons_of_mem c hm)
    have ha : cs.append (sep :: rest) = cs ++ sep :: rest := rfl
    simp only [List.cons_append, splitN2]
    rw [if_neg hc, ha, ih hcs]

theorem splitN2_length_eq_two_iff (sep : Char) (s : List Char) :
    (splitN2 sep s).length = 2 ↔ sep ∈ s := by
  induction s with
  | nil => simp [splitN2]
  | cons c rest ih =>
    simp only [splitN2]
    by_cases hc : c = sep
    · simp [hc]
    · rw [if_neg hc]
      rcases h : splitN2 sep rest with _ | ⟨p, ps⟩
      · exact absurd h (splitN2_ne_nil sep rest)
      · rw [h] at ih
        have hcs : sep ≠ c := fun hh => hc hh.symm
        simp only [List.length_cons] at ih ⊢
        rw [List.mem_cons]
        constructor
        · exact fun hl => Or.inr (ih.mp hl)
        · rintro (hh | hh)
          · exact absurd hh hcs
          · exact ih.mpr hh

/-- The `.jar` constant of the source. -/
def jarExtChars : List Char := ['.', 'j', 'a', 'r']

/-- Coordinate resolution from the source: split the library name at the
first `:` into two pieces (fail otherwise), split the remainder on `:`, the
group on `.`, and join
`path.Join(libraryRoot, path.Join(pathSplit..., filename))` where the
filename is the remainder segments joined with `-`, the optional
`-<classifier>` suffix (present exactly when resolving a native variant),
and `.jar`. -/
def resolveLibraryPath (libraryRoot : List Char) (name : List Char)
    (classifier : Option (List Char)) : Option (List Char) :=
  match splitN2 ':' name with
  | [p0, p1] =>
    some (goPathJoin [libraryRoot,
      goPathJoin ((splitOnChar '.' p0 ++ splitOnChar ':' p1) ++
        [joinSep '-' (splitOnChar ':' p1) ++
          (match classifier with
           | some c => '-' :: c
           | none => []) ++ jarExtChars])])
  | _ => none

/-- C7: resolution fails iff splitting the coordinate at the first `:` does
not yield exactly two parts, which happens iff the coordinate contains no
`:`; in particular the colon-free coordinate `bad-format` fails, and every
coordinate containing a `:` does not trigger this error. -/
theorem c7_malformed_coordinate_iff :
    ∀ (root : List Char) (cls : Option (List Char)) (name : List Char),
      (resolveLibraryPath root name cls = none ↔ (splitN2 ':' name).length ≠ 2) ∧
      ((splitN2 ':' name).length = 2 ↔ ':' ∈ name) ∧
      resolveLibraryPath root "bad-format".data cls = none := by
  intro root cls name
  refine ⟨?_, splitN2_length_eq_two_iff ':' name, ?_⟩
  · rcases h : splitN2 ':' name with _ | ⟨p0, _ | ⟨p1, _ | ⟨p2, ps⟩⟩⟩ <;>
      simp [resolveLibraryPath, h]
  · have hb : splitN2 ':' ("bad-format".data) = ["bad-format".data] := by decide
    simp [resolveLibraryPath, hb]

theorem goPathJoin_two (xs ys : List (List Char)) (hxne : xs ≠ []) (hyne : ys ≠ [])
    (hx : ∀ s ∈ xs, SimpleSeg s) (hy : ∀ s ∈ ys, SimpleSeg s) :
    goPathJoin [joinSep '/' xs, joinSep '/' ys] = joinSep '/' (xs ++ ys) := by
  have hxs : joinSep '/' xs ≠ [] := joinSep_ne_nil '/' xs hxne (fun s hs => (hx s hs).1)
  have hys : joinSep '/' ys ≠ [] := joinSep_ne_nil '/' ys hyne (fun s hs => (hy s hs).1)
  have happ : joinSep '/' (xs ++ ys) = joinSep '/' xs ++ '/' :: joinSep '/' ys :=
    joinSep_append '/' xs ys hxne hyne
  have hall : ∀ s ∈ xs ++ ys, SimpleSeg s := by
    intro s hs
    rcases List.mem_append.mp hs with h | h
    · exact hx s h
    · exact hy s h
  have hallne : xs ++ ys ≠ [] := fun h => hxne (List.append_eq_nil.mp h).1
  have hfil : [joinSep '/' xs, joinSep '/' ys].filter (fun s => s ≠ []) =
      [joinSep '/' xs, joinSep '/' ys] := by
    refine filter_ne_nil_eq_self _ ?_
    intro s hs
    simp only [List.mem_cons, List.not_mem_nil, or_false] at hs
    rcases hs with rfl | rfl
    · exact hxs
    · exact hys
  have hj2 : joinSep '/' [joinSep '/' xs, joinSep '/' ys] =
      joinSep '/' xs ++ '/' :: joinSep '/' ys := by
    simp [joinSep]
  simp only [goPathJoin, hfil, hj2, ← happ]
  rw [if_neg (joinSep_ne_nil '/' (xs ++ ys) hallne (fun s hs => (hall s hs).1))]
  exact pathClean_simple (xs ++ ys) hallne hall

theorem filename_simple (a v sfx : List Char) (haslash : '/' ∉ a)
    (hvslash : '/' ∉ v) (hsfx : '/' ∉ sfx) :
    SimpleSeg (a ++ '-' :: v ++ sfx ++ jarExtChars) := by
  have hlen : 3 ≤ (a ++ '-' :: v ++ sfx ++ jarExtChars).length := by
    simp only [List.length_append, List.length_cons, jarExtChars, List.length]
    omega
  refine ⟨?_, ?_, ?_, ?_⟩
  · intro h
    rw [h] at hlen
    simp at hlen
  · intro h
    simp only [List.mem_append, List.mem_cons] at h
    rcases h with ((h | h | h) | h) | h
    · exact haslash h
    · simp at h
    · exact hvslash h
    · exact hsfx h
    · simp [jarExtChars] at h
  · intro h
    rw [h] at hlen
    simp at hlen
  · intro h
    rw [h] at hlen
    simp at hlen

theorem resolve_path_assembly (rootSegs gsav : List (List Char)) (F : List Char)
    (hrne : rootSegs ≠ []) (hrsimple : ∀ s ∈ rootSegs, SimpleSeg s)
    (hsimple : ∀ s ∈ gsav, SimpleSeg s) (hF : SimpleSeg F) :
    goPathJoin [joinSep '/' rootSegs, goPathJoin (gsav ++ [F])] =
      joinSep '/' ((rootSegs ++ gsav) ++ [F]) := by
  have h1 : ∀ s ∈ gsav ++ [F], SimpleSeg s := by
    intro s hs
    rcases List.mem_append.mp hs with h | h
    · exact hsimple s h
    · simp only [List.mem_cons, List.not_mem_nil, or_false] at h
      subst h
      exact hF
  have h2 : gsav ++ [F] ≠ [] := by simp
  rw [goPathJoin_simple _ h2 h1,
    goPathJoin_two rootSegs _ hrne h2 hrsimple h1, ← List.append_assoc]

/-- C3: for every coordinate `group:artifact:version` built from simple path
segments, the resolved path is the library root joined with the group's
dot-separated segments as nested directories, then artifact, then version,
with filename `artifact-version` plus `.jar`, and with a platform classifier
the filename additionally gets a `-<classifier>` suffix before the
extension. -/
theorem c3_coordinate_resolution (rootSegs gs : List (List Char)) (a v : List Char)
    (cls : Option (List Char))
    (hroot : rootSegs ≠ [] ∧ ∀ s ∈ rootSegs, SimpleSeg s)
    (hgs : gs ≠ [] ∧ ∀ s ∈ gs, SimpleSeg s ∧ '.' ∉ s ∧ ':' ∉ s)
    (ha : SimpleSeg a ∧ ':' ∉ a)
    (hv : SimpleSeg v ∧ ':' ∉ v)
    (hcls : ∀ c, cls = some c → '/' ∉ c) :
    resolveLibraryPath (joinSep '/' rootSegs)
        (joinSep '.' gs ++ ':' :: (a ++ ':' :: v)) cls =
      some (joinSep '/' ((rootSegs ++ (gs ++ [a, v])) ++
        [a ++ '-' :: v ++
          (match cls with
           | some c => '-' :: c
           | none => []) ++ jarExtChars])) := by
  obtain ⟨hrne, hrsimple⟩ := hroot
  obtain ⟨hgne, hgseg⟩ := hgs
  obtain ⟨hasimple, hacolon⟩ := ha
  obtain ⟨hvsimple, hvcolon⟩ := hv
  have hgcolon : ':' ∉ joinSep '.' gs := by
    intro hmem
    rcases mem_joinSep '.' gs ':' hmem with h | ⟨x, hx, hcx⟩
    · simp at h
    · exact (hgseg x hx).2.2 hcx
  have hsplitname : splitN2 ':' (joinSep '.' gs ++ ':' :: (a ++ ':' :: v)) =
      [joinSep '.' gs, a ++ ':' :: v] := splitN2_append_sep ':' _ _ hgcolon
  have hsplit1 : splitOnChar ':' (a ++ ':' :: v) = [a, v] := by
    rw [splitOnChar_append_sep ':' a _ hacolon, splitOnChar_of_not_mem ':' v hvcolon]
  have hsplit0 : splitOnChar '.' (joinSep '.' gs) = gs :=
    splitOnChar_joinSep '.' gs hgne (fun x hx => (hgseg x hx).2.1)
  have hjd : joinSep '-' [a, v] = a ++ '-' :: v := rfl
  have hsegs : ∀ s ∈ gs ++ [a, v], SimpleSeg s := by
    intro s hs
    rcases List.mem_append.mp hs with h | h
    · exact (hgseg s h).1
    · simp only [List.mem_cons, List.not_mem_nil, or_false] at h
      rcases h with rfl | rfl
      · exact hasimple
      · exact hvsimple
  simp only [resolveLibraryPath, hsplitname, hsplit1, hsplit0, hjd]
  rcases cls with _ | c
  · exact congrArg some (resolve_path_assembly rootSegs (gs ++ [a, v])
      (a ++ '-' :: v ++ [] ++ jarExtChars) hrne hrsimple hsegs
      (filename_simple a v [] hasimple.2.1 hvsimple.2.1 (by simp)))
  · have hcslash : '/' ∉ '-' :: c := by
      intro h
      rcases List.mem_cons.mp h with h | h
      · simp at h
      · exact hcls c rfl h
    exact congrArg some (resolve_path_assembly rootSegs (gs ++ [a, v])
      (a ++ '-' :: v ++ ('-' :: c) ++ jarExtChars) hrne hrsimple hsegs
      (filename_simple a v ('-' :: c) hasimple.2.1 hvsimple.2.1 hcslash))

/-- Witness for C3 at the spec's concrete example with classifier
`natives-windows`. -/
theorem c3_witness :
    resolveLibraryPath "libs".data "com.example:lib:1.2.3".data
        (some "natives-windows".data) =
      some "libs/com/example/lib/1.2.3/lib-1.2.3-natives-windows.jar".data := by
  have h := c3_coordinate_resolution ["libs".data] ["com".data, "example".data]
    "lib".data "1.2.3".data (some "natives-windows".data)
    (by decide) (by decide) (by decide) (by decide)
    (fun c hc => by cases hc; decide)
  calc resolveLibraryPath "libs".data "com.example:lib:1.2.3".data
        (some "natives-windows".data)
      = resolveLibraryPath (joinSep '/' ["libs".data])
          (joinSep '.' ["com".data, "example".data] ++ ':' ::
            ("lib".data ++ ':' :: "1.2.3".data)) (some "natives-windows".data) := by decide
    _ = _ := h
    _ = some "libs/com/example/lib/1.2.3/lib-1.2.3-natives-windows.jar".data := by decide

/-! ## SHA-1 (Go crypto/sha1) and native archive verification/extraction
(minecraftLauncher.go lines 177-224) -/

/-- Truncation to a 32-bit word. -/
def w32 (x : Nat) : Nat := x % 4294967296

/-- Left-rotation of a 32-bit word by `k` bits. -/
def rotl32 (k x : Nat) : Nat := w32 ((x <<< k) + (x >>> (32 - k)))

/-- SHA-1 padding: append `0x80`, zero-pad to 56 mod 64, then the bit length
as eight big-endian bytes. -/
def sha1Pad (msg : List Nat) : List Nat :=
  msg ++ [128] ++ List.replicate ((64 + 56 - (msg.length + 1) % 64) % 64) 0 ++
    [(8 * msg.length >>> 56) % 256, (8 * msg.length >>> 48) % 256,
     (8 * msg.length >>> 40) % 256, (8 * msg.length >>> 32) % 256,
     (8 * msg.length >>> 24) % 256, (8 * msg.length >>> 16) % 256,
     (8 * msg.length >>> 8) % 256, (8 * msg.length) % 256]

/-- Big-endian grouping of bytes into 32-bit words. -/
def bytesToWords : List Nat → List Nat
  | a :: b :: c :: d :: rest => (((a * 256 + b) * 256 + c) * 256 + d) :: bytesToWords rest
  | _ => []

/-- SHA-1 message-schedule extension of the 16 chunk words to 80. -/
def extendW (ws : List Nat) : List Nat :=
  (List.range 64).foldl (fun acc _ =>
    acc ++ [rotl32 1 (Nat.xor (Nat.xor (acc.getD (acc.length - 3) 0) (acc.getD (acc.length - 8) 0))
      (Nat.xor (acc.getD (acc.length - 14) 0) (acc.getD (acc.length - 16) 0)))]) ws

/-- SHA-1 round function. -/
def sha1F (i b c d : Nat) : Nat :=
  if i < 20 then Nat.lor (Nat.land b c) (Nat.land (Nat.xor b 4294967295) d)
  else if i < 40 then Nat.xor (Nat.xor b c) d
  else if i < 60 then Nat.lor (Nat.lor (Nat.land b c) (Nat.land b d)) (Nat.land c d)
  else Nat.xor (Nat.xor b c) d

/-- SHA-1 round constants. -/
def sha1K (i : Nat) : Nat :=
  if i < 20 then 1518500249 else if i < 40 then 1859775393
  else if i < 60 then 2400959708 else 3395469782

/-- SHA-1 compression of one 64-byte chunk into the running state `h`
(five 32-bit words, handled as a quintuple via projections). -/
def sha1Chunk (h : List Nat) (chunk : List Nat) : List Nat :=
  let ws := extendW (bytesToWords chunk)
  let fin := (List.range 80).foldl (fun st i =>
    (w32 (rotl32 5 st.1 + sha1F i st.2.1 st.2.2.1 st.2.2.2.1 + st.2.2.2.2 +
        sha1K i + ws.getD i 0),
      st.1, rotl32 30 st.2.1, st.2.2.1, st.2.2.2.1))
    (h.getD 0 0, h.getD 1 0, h.getD 2 0, h.getD 3 0, h.getD 4 0)
  [w32 (h.getD 0 0 + fin.1), w32 (h.getD 1 0 + fin.2.1), w32 (h.getD 2 0 + fin.2.2.1),
   w32 (h.getD 3 0 + fin.2.2.2.1), w32 (h.getD 4 0 + fin.2.2.2.2)]

/-- Iterated chunk compression; `n` is the number of 64-byte chunks of the
(padded) input, so the recursion is structural. -/
def sha1ChunksN : Nat → List Nat → List Nat → List Nat
  | 0, h, _ => h
  | n + 1, h, bytes => sha1ChunksN n (sha1Chunk h (bytes.take 64)) (bytes.drop 64)

/-- Big-endian serialization of the five state words to twenty bytes. -/
def wordsToBytes : List Nat → List Nat
  | [] => []
  | w :: ws => ((w >>> 24) % 256) :: ((w >>> 16) % 256) :: ((w >>> 8) % 256) ::
      (w % 256) :: wordsToBytes ws

/-- SHA-1 of a byte stream, modelling Go's `sha1.New()` / `io.Copy(hash, f)`
/ `hash.Sum(nil)` over the archive's full contents. -/
def sha1 (msg : List Nat) : List Nat :=
  wordsToBytes (sha1ChunksN ((sha1Pad msg).length / 64)
    [1732584193, 4023233417, 2562383102, 271733878, 3285377520] (sha1Pad msg))

/-- Sanity check against the official SHA-1 test vector for "abc". -/
theorem sha1_abc : sha1 [97, 98, 99] = [169, 153, 62, 54, 71, 6, 129, 106,
    186, 62, 37, 113, 120, 80, 194, 108, 156, 208, 216, 157] := by decide

theorem sha1Chunk_length (h chunk : List Nat) : (sha1Chunk h chunk).length = 5 := by
  simp [sha1Chunk]

theorem sha1ChunksN_length (n : Nat) : ∀ h bytes : List Nat, h.length = 5 →
    (sha1ChunksN n h bytes).length = 5 := by
  induction n with
  | zero => intro h bytes hh; simpa [sha1ChunksN] using hh
  | succ m ih =>
    intro h bytes _
    simp only [sha1ChunksN]
    exact ih _ _ (sha1Chunk_length _ _)

theorem wordsToBytes_length (ws : List Nat) : (wordsToBytes ws).length = 4 * ws.length := by
  induction ws with
  | nil => rfl
  | cons w rest ih =>
    simp only [wordsToBytes, List.length_cons, ih]
    omega

theorem sha1_length (msg : List Nat) : (sha1 msg).length = 20 := by
  rw [sha1, wordsToBytes_length, sha1ChunksN_length _ _ _ (by rfl)]

/-- The `hex` lookup table of the source
(`var hex = [...]byte{'0', ..., 'f'}`). -/
def hexTable : List Char := "0123456789abcdef".data

/-- Indexing into the hex table (indices used by the source are < 16). -/
def hexAt (n : Nat) : Char := hexTable.getD n '0'

/-- The comparison loop of the source
(`for n, b := range hash.Sum(nil) { fail(hex[b>>4] != signature[n<<1] || ...) }`):
the first byte whose nibbles do not match the two digest-file characters at
positions `2n` and `2n+1` aborts. -/
def checkDigestLoop (signature : List Char) : Nat → List Nat → Bool
  | _, [] => true
  | n, b :: rest =>
    if hexAt (b >>> 4) = signature.getD (2 * n) '0' ∧
        hexAt (b &&& 15) = signature.getD (2 * n + 1) '0'
    then checkDigestLoop signature (n + 1) rest
    else false

theorem checkDigestLoop_iff (signature : List Char) (digest : List Nat) :
    ∀ n, checkDigestLoop signature n digest = true ↔
      ∀ i < digest.length,
        hexAt (digest.getD i 0 >>> 4) = signature.getD (2 * (n + i)) '0' ∧
        hexAt (digest.getD i 0 &&& 15) = signature.getD (2 * (n + i) + 1) '0' := by
  induction digest with
  | nil => intro n; simp [checkDigestLoop]
  | cons b rest ih =>
    intro n
    simp only [checkDigestLoop]
    by_cases hcond : hexAt (b >>> 4) = signature.getD (2 * n) '0' ∧
        hexAt (b &&& 15) = signature.getD (2 * n + 1) '0'
    · rw [if_pos hcond, ih (n + 1)]
      constructor
      · intro h i hi
        cases i with
        | zero => simpa using hcond
        | succ j =>
          have hj : j < rest.length := by simpa using hi
          have hstep := h j hj
          have harith : n + 1 + j = n + (j + 1) := by omega
          rw [harith] at hstep
          simpa using hstep
      · intro h i hi
        have harith : n + (i + 1) = n + 1 + i := by omega
        have hstep := h (i + 1) (by simpa using hi)
        rw [harith] at hstep
        simpa using hstep
    · rw [if_neg hcond]
      simp only [Bool.false_eq_true, false_iff]
      intro h
      exact hcond (by simpa using h 0 (by simp))

/-- An entry of the native archive: its path inside the archive and its
decompressed contents. -/
structure ZipEntry where
  name : List Char
  content : List Nat

/-- Exclusion test of the `ZipLoop`
(`len(file.Name) >= len(exclude) && file.Name[:len(exclude)] == exclude`),
over every configured exclusion prefix. -/
def isExcluded (excludes : List (List Char)) (name : List Char) : Bool :=
  excludes.any (fun e => decide (e.length ≤ name.length) && decide (name.take e.length = e))

/-- The `ZipLoop` of the source: entries matching an exclusion prefix are
skipped (`continue ZipLoop`); every other entry produces a write of its
decompressed bytes to `path.Join(nativesDir, file.Name)`. The result is the
ordered list of (destination path, bytes written) pairs. -/
def extractEntries (nativesDir : List Char) (excludes : List (List Char)) :
    List ZipEntry → List (List Char × List Nat)
  | [] => []
  | f :: rest =>
    if isExcluded excludes f.name then extractEntries nativesDir excludes rest
    else (goPathJoin [nativesDir, f.name], f.content) :: extractEntries nativesDir excludes rest

/-- Errors of the native verification/extraction pipeline; each corresponds
to a `fail(...)` call in the source, which prints a diagnostic and
terminates the launcher. -/
inductive NativeError where
  | sigOpenFail
  | sigReadFail
  | archiveOpenFail
  | sigMismatch
deriving DecidableEq

/-- The native branch of the library loop (lines 177-224): open the digest
file (`none` models an unreadable file), read exactly 40 characters from it
(`io.ReadFull` fails when fewer are available), open the archive, hash the
archive's full byte stream with SHA-1, compare the digest against the 40
characters nibble by nibble, and only on success extract the archive's
entries into the natives directory. `entries` stands for the parsed contents
of `archive` (the zip container format itself is not modelled). -/
def processNative (nativesDir : List Char) (excludes : List (List Char))
    (sigFile : Option (List Char)) (archive : Option (List Nat))
    (entries : List ZipEntry) : Except NativeError (List (List Char × List Nat)) :=
  match sigFile with
  | none => Except.error NativeError.sigOpenFail
  | some sigContent =>
    if sigContent.length < 40 then Except.error NativeError.sigReadFail
    else
      match archive with
      | none => Except.error NativeError.archiveOpenFail
      | some bytes =>
        if checkDigestLoop (sigContent.take 40) 0 (sha1 bytes)
        then Except.ok (extractEntries nativesDir excludes entries)
        else Except.error NativeError.sigMismatch

/-- C4: for every verified archive and exclusion-prefix list, an entry whose
path starts with an exclusion prefix is never written, and every other entry
is written to `scratchDir/entryPath` with its decompressed bytes: the write
trace is exactly the non-excluded entries, in order, each mapped to its
destination path and contents. -/
theorem c4_extraction_excludes (nativesDir : List Char) (excludes : List (List Char))
    (files : List ZipEntry) :
    extractEntries nativesDir excludes files =
      (files.filter (fun f => !isExcluded excludes f.name)).map
        (fun f => (goPathJoin [nativesDir, f.name], f.content)) := by
  induction files with
  | nil => rfl
  | cons f rest ih =>
    simp only [extractEntries, List.filter]
    cases h : isExcluded excludes f.name <;> simp [h, ih, extractEntries]

/-- C2: verification reads exactly 40 characters from the digest file (the
result does not depend on anything beyond them, and a shorter file is a read
failure), computes the SHA-1 of the archive's full byte stream, succeeds iff
for every byte `i` of the 20-byte digest the lowercase-hex character of its
high nibble equals digest-file character `2i` and that of its low nibble
equals character `2i+1`; any mismatch or failure to read either file yields
an error and extraction never occurs after a mismatch. -/
theorem c2_signature_verification (nativesDir : List Char) (excludes : List (List Char))
    (s extra : List Char) (bytes : List Nat) (entries : List ZipEntry)
    (h40 : s.length = 40) :
    processNative nativesDir excludes (some (s ++ extra)) (some bytes) entries =
        processNative nativesDir excludes (some s) (some bytes) entries ∧
    (processNative nativesDir excludes (some s) (some bytes) entries =
        Except.ok (extractEntries nativesDir excludes entries) ↔
      ∀ i < 20, hexAt ((sha1 bytes).getD i 0 >>> 4) = s.getD (2 * i) '0' ∧
        hexAt ((sha1 bytes).getD i 0 &&& 15) = s.getD (2 * i + 1) '0') ∧
    (∀ ws, processNative nativesDir excludes (some s) (some bytes) entries =
        Except.ok ws → ws = extractEntries nativesDir excludes entries) ∧
    (∀ t : List Char, t.length < 40 →
      processNative nativesDir excludes (some t) (some bytes) entries =
        Except.error NativeError.sigReadFail) ∧
    processNative nativesDir excludes none (some bytes) entries =
      Except.error NativeError.sigOpenFail ∧
    processNative nativesDir excludes (some s) none entries =
      Except.error NativeError.archiveOpenFail := by
  have hnlt : ¬(s.length < 40) := by omega
  have htake : s.take 40 = s := by rw [← h40, List.take_length]
  have hnlt2 : ¬((s ++ extra).length < 40) := by
    simp only [List.length_append]
    omega
  have htake2 : (s ++ extra).take 40 = s := by
    rw [← h40]
    exact List.take_left s extra
  have hcheck : checkDigestLoop s 0 (sha1 bytes) = true ↔
      ∀ i < 20, hexAt ((sha1 bytes).getD i 0 >>> 4) = s.getD (2 * i) '0' ∧
        hexAt ((sha1 bytes).getD i 0 &&& 15) = s.getD (2 * i + 1) '0' := by
    rw [checkDigestLoop_iff s (sha1 bytes) 0, sha1_length bytes]
    constructor
    · intro h i hi
      have := h i hi
      simpa [Nat.zero_add] using this
    · intro h i hi
      have := h i hi
      simpa [Nat.zero_add] using this
  refine ⟨?_, ?_, ?_, ?_, rfl, ?_⟩
  · simp only [processNative, if_neg hnlt, if_neg hnlt2, htake, htake2]
  · simp only [processNative, if_neg hnlt, htake]
    rw [← hcheck]
    cases hc : checkDigestLoop s 0 (sha1 bytes) <;> simp [hc]
  · intro ws hws
    simp only [processNative, if_neg hnlt, htake] at hws
    cases hc : checkDigestLoop s 0 (sha1 bytes) <;> rw [hc] at hws
    · simp at hws
    · simpa using hws.symm
  · intro t ht
    simp [processNative, ht]
  · simp [processNative, if_neg hnlt]

/-- Witness for C2: the digest file holding the lowercase-hex SHA-1 of the
concrete archive bytes `[97, 98, 99]`, with trailing characters beyond the
first 40 ignored. -/
theorem c2_witness :
    processNative "natives".data ["META-INF/".data]
        (some ("a9993e364706816aba3e25717850c26c9cd0d89d".data ++ "xx".data))
        (some [97, 98, 99]) [⟨"a.so".data, [1, 2]⟩] =
      processNative "natives".data ["META-INF/".data]
        (some "a9993e364706816aba3e25717850c26c9cd0d89d".data)
        (some [97, 98, 99]) [⟨"a.so".data, [1, 2]⟩] :=
  (c2_signature_verification "natives".data ["META-INF/".data]
    "a9993e364706816aba3e25717850c26c9cd0d89d".data "xx".data
    [97, 98, 99] [⟨"a.so".data, [1, 2]⟩] (by decide)).1

/-! ## Argument substitution (minecraftLauncher.go lines 247-261) -/

/-- The runtime context consumed by the substitution switch: profile/user
fields and the install directory. -/
structure RuntimeContext where
  playerName : List Char
  sessionToken : List Char
  selectedUserId : List Char
  selectedVersionId : List Char
  installDirectory : List Char

/-- The switch of the substitution loop: a token equal to one of the five
placeholders is replaced, any other token is left as it is. -/
def substToken (ctx : RuntimeContext) (arg : List Char) : List Char :=
  if arg = "${auth_player_name}".data then ctx.playerName
  else if arg = "${auth_session}".data then
    "token:".data ++ ctx.sessionToken ++ ':' :: ctx.selectedUserId
  else if arg = "${version_name}".data then ctx.selectedVersionId
  else if arg = "${game_directory}".data then ctx.installDirectory
  else if arg = "${game_assets}".data then
    goPathJoin [ctx.installDirectory, "assets".data, "virtual".data, "legacy".data]
  else arg

/-- The substitution loop (`for i, arg := range ma { switch arg ... }`):
each position is overwritten with the switch applied to the token read at
that position. -/
def substLoop (ctx : RuntimeContext) : List (List Char) → List (List Char)
  | [] => []
  | arg :: rest => substToken ctx arg :: substLoop ctx rest

/-- Argument substitution from the source:
`ma := strings.Split(launchConfig.Args, " ")` followed by the loop. -/
def substArgs (ctx : RuntimeContext) (template : List Char) : List (List Char) :=
  substLoop ctx (splitOnChar ' ' template)

/-- Modelled from the spec: "split the template on whitespace into tokens" —
the same splitting structure as `splitOnChar`, but cutting at every
whitespace character rather than only at the space character; for
comparison with `substArgs`. -/
def splitWhitespaceSpec : List Char → List (List Char)
  | [] => [[]]
  | c :: rest =>
    match splitWhitespaceSpec rest with
    | [] => [[]]
    | p :: ps => if c.isWhitespace then [] :: p :: ps else (c :: p) :: ps

/-- Specification-side substitutor built on the whitespace split, for
comparison with `substArgs`. -/
def substArgsSpec (ctx : RuntimeContext) (template : List Char) : List (List Char) :=
  substLoop ctx (splitWhitespaceSpec template)

/-- A concrete runtime context used by the closed counterexamples. -/
def ctx0 : RuntimeContext :=
  ⟨"Alice".data, "tok".data, "uuid1".data, "1.7.10".data, "/home/x/game".data⟩

/-- C5 counterexample: on the template `--a<TAB>--b` the code (which splits
only on the space character) keeps one token, while splitting on whitespace
would produce two, so the claim's "split on whitespace" does not describe
the code. -/
theorem c5_counterexample :
    substArgsSpec ctx0 ("--a\t--b".data) ≠ substArgs ctx0 ("--a\t--b".data) := by decide

theorem substLoop_eq_map (ctx : RuntimeContext) (ts : List (List Char)) :
    substLoop ctx ts = ts.map (substToken ctx) := by
  induction ts with
  | nil => rfl
  | cons t rest ih => simp [substLoop, ih]

/-- C5 (amended): the template is split on the space character into tokens;
each token equal to `${auth_player_name}`, `${auth_session}`,
`${version_name}`, `${game_directory}` or `${game_assets}` is replaced
respectively by the context's player name,
`token:` + sessionToken + `:` + selectedUserId, the selected version id,
the install directory, or installDirectory/assets/virtual/legacy; every
other token is passed through unchanged. -/
theorem c5_argument_substitution (ctx : RuntimeContext) (template : List Char) :
    substArgs ctx template = (splitOnChar ' ' template).map (substToken ctx) ∧
    substToken ctx "${auth_player_name}".data = ctx.playerName ∧
    substToken ctx "${auth_session}".data =
      "token:".data ++ ctx.sessionToken ++ ':' :: ctx.selectedUserId ∧
    substToken ctx "${version_name}".data = ctx.selectedVersionId ∧
    substToken ctx "${game_directory}".data = ctx.installDirectory ∧
    substToken ctx "${game_assets}".data =
      goPathJoin [ctx.installDirectory, "assets".data, "virtual".data, "legacy".data] ∧
    ∀ t : List Char, t ∉ ["${auth_player_name}".data, "${auth_session}".data,
        "${version_name}".data, "${game_directory}".data, "${game_assets}".data] →
      substToken ctx t = t := by
  refine ⟨substLoop_eq_map ctx _, ?_, ?_, ?_, ?_, ?_, ?_⟩
  · rw [substToken, if_pos rfl]
  · rw [substToken, if_neg (by decide), if_pos rfl]
  · rw [substToken, if_neg (by decide), if_neg (by decide), if_pos rfl]
  · rw [substToken, if_neg (by decide), if_neg (by decide), if_neg (by decide), if_pos rfl]
  · rw [substToken, if_neg (by decide), if_neg (by decide), if_neg (by decide),
      if_neg (by decide), if_pos rfl]
  · intro t ht
    simp only [List.mem_cons, List.not_mem_nil, or_false, not_or] at ht
    obtain ⟨h1, h2, h3, h4, h5⟩ := ht
    rw [substToken, if_neg h1, if_neg h2, if_neg h3, if_neg h4, if_neg h5]

/-- Witness for C5 at a concrete unrecognized token. -/
theorem c5_witness : substToken ctx0 "--demo".data = "--demo".data :=
  (c5_argument_substitution ctx0 []).2.2.2.2.2.2 "--demo".data (by decide)

/-- C10: substitution is a per-token whole-match rewrite preserving
structure: the output list has the same length as the input token list, the
output token at each position depends only on the input token at the same
position, and a token that merely contains (but does not equal) a
recognized placeholder, such as `x${auth_player_name}`, is left unchanged. -/
theorem c10_substitution_frame (ctx : RuntimeContext) (template : List Char)
    (ts : List (List Char)) (i : Nat) :
    (substArgs ctx template).length = (splitOnChar ' ' template).length ∧
    (substLoop ctx ts).length = ts.length ∧
    (substLoop ctx ts)[i]? = (ts[i]?).map (substToken ctx) ∧
    substToken ctx "x${auth_player_name}".data = "x${auth_player_name}".data := by
  refine ⟨?_, ?_, ?_, ?_⟩
  · rw [substArgs, substLoop_eq_map, List.length_map]
  · rw [substLoop_eq_map, List.length_map]
  · rw [substLoop_eq_map, List.getElem?_map]
  · rw [substToken, if_neg (by decide), if_neg (by decide), if_neg (by decide),
      if_neg (by decide), if_neg (by decide)]

/-! ## Launch assembly (minecraftLauncher.go lines 233-245 and 262) -/

/-- The five fixed runtime tuning flags of the args vector. -/
def fixedTuningFlags : List (List Char) :=
  ["-Xmx1G".data, "-XX:+UseConcMarkSweepGC".data, "-XX:+CMSIncrementalMode".data,
   "-XX:-UseAdaptiveSizePolicy".data, "-Xmn128M".data]

/-- The classpath list: the resolved ordinary library paths with the
version's primary jar appended (line 233). -/
def classpathEntries (resolved : List (List Char)) (primaryJar : List Char) :
    List (List Char) := resolved ++ [primaryJar]

/-- The args vector of the source (lines 235-245 and 262): tuning flags, the
`-Djava.library.path=` flag naming the natives directory, `-cp` with the
`:`-joined classpath, the main class, then the substituted tokens. -/
def assembleArgs (nativesDir : List Char) (classpath : List (List Char))
    (mainCls : List Char) (ma : List (List Char)) : List (List Char) :=
  ["-Xmx1G".data, "-XX:+UseConcMarkSweepGC".data, "-XX:+CMSIncrementalMode".data,
   "-XX:-UseAdaptiveSizePolicy".data, "-Xmn128M".data,
   "-Djava.library.path=".data ++ nativesDir,
   "-cp".data,
   joinSep ':' classpath,
   mainCls] ++ ma

/-- C6: the assembled argument vector is, in order: the fixed runtime tuning
flags, a library-search-path flag naming the scratch natives directory, a
classpath flag whose value is every resolved classpath entry plus the
version's primary archive joined with the path-list separator `:`, the
manifest's main entry point, and then the substituted argument list. -/
theorem c6_launch_assembly (nativesDir primaryJar mainCls : List Char)
    (resolved ma : List (List Char)) :
    assembleArgs nativesDir (classpathEntries resolved primaryJar) mainCls ma =
      fixedTuningFlags ++ ["-Djava.library.path=".data ++ nativesDir] ++
        ["-cp".data, joinSep ':' (resolved ++ [primaryJar])] ++ [mainCls] ++ ma := by
  simp [assembleArgs, classpathEntries, fixedTuningFlags]

/-! ## Process supervision tail (minecraftLauncher.go lines 282-291, 70-75) -/

/-- Observable ways the launcher process can end. -/
inductive ExitOutcome where
  | exited (code : Nat)
  | returned
deriving DecidableEq

/-- The `fail` helper (lines 70-75): when `test` holds it prints a
diagnostic and calls `os.Exit(0)`; otherwise control continues. -/
def failGo (test : Bool) : Option ExitOutcome :=
  if test then some (ExitOutcome.exited 0) else none

/-- The tail of `main` after the child is started (lines 286-291): the
return value of `cmd.Wait()` — which carries the child's exit status — is
discarded, the natives directory is removed, `fail` aborts (with exit code
0) when removal failed, and otherwise `main` returns normally. -/
def supervisorFinish (_childStatus : Nat) (removeErr : Bool) : ExitOutcome :=
  match failGo removeErr with
  | some o => o
  | none => ExitOutcome.returned

/-- The process exit code an `ExitOutcome` produces (a normal return from
`main` exits with code 0). -/
def exitCodeOf : ExitOutcome → Nat
  | ExitOutcome.exited c => c
  | ExitOutcome.returned => 0

/-- C8 counterexample: a child exiting with status 1 does not see its status
propagated — the launcher's own exit code is 0. -/
theorem c8_counterexample : exitCodeOf (supervisorFinish 1 false) ≠ 1 := by decide

/-- C8 (amended): the child process's exit status is not propagated: the
supervisor waits for termination but discards the status returned by the
wait, and the launcher's exit code is 0 whatever the child's status and
whether cleanup failed. -/
theorem c8_exit_status_discarded (childStatus : Nat) (removeErr : Bool) :
    exitCodeOf (supervisorFinish childStatus removeErr) = 0 := by
  cases removeErr <;> rfl
